import Mathlib

/-!
Verification development for the PhonePe statement analyzer (`app.py`).

The Python source is shallowly embedded:
* Python `str` is Lean `String` (character lists; `str.lower` is modelled on
  ASCII, which covers every string the program manipulates).
* Python `dict` (which preserves insertion order and has unique keys) is an
  association list `List (String × α)`; lookup takes the first matching key.
* A pandas `DataFrame` row is the structure `Row`; the data frame is a
  `List Row`.  The `Category` column is `Option String` (`none` before the
  column has been assigned).  In-place column assignment
  (`df["Category"] = categories`) is modelled by the function returning the
  updated list: after the call the caller's frame *is* the returned value.
* Monetary amounts are modelled in integer cents (`Nat`): the amount regex
  `INR ([\d,]+\.\d{2})` always yields exactly two decimals, and Python's
  `float` of such a literal denotes exactly `cents / 100` for all statement
  sized values.
-/

/-! ### Python string primitives -/

/-- `str.lower`, restricted to ASCII (all strings in the program are ASCII). -/
def pyLower (s : String) : String := String.mk (s.data.map Char.toLower)

/-- `str.strip()`: drop leading and trailing whitespace. -/
def pyStrip (s : String) : String :=
  String.mk (((s.data.dropWhile Char.isWhitespace).reverse.dropWhile Char.isWhitespace).reverse)

/-- Does `needle` occur at the head of the list? (used by substring search) -/
def leadMatch : List Char → List Char → Bool
  | [], _ => true
  | _ :: _, [] => false
  | n :: ns, h :: hs => n == h && leadMatch ns hs

/-- Substring occurrence of `needle` anywhere in the second list. -/
def containsSub (needle : List Char) : List Char → Bool
  | [] => needle.isEmpty
  | h :: hs => leadMatch needle (h :: hs) || containsSub needle hs

/-- Python `needle in hay` on strings. -/
def strContains (hay needle : String) : Bool := containsSub needle.data hay.data

/-- Helper for `str.split()` with no separator: accumulate the current token
(reversed) and split on runs of whitespace, dropping empty tokens. -/
def tokensAux : List Char → List Char → List (List Char)
  | [], acc => if acc.isEmpty then [] else [acc.reverse]
  | c :: cs, acc =>
    if c.isWhitespace then
      if acc.isEmpty then tokensAux cs [] else acc.reverse :: tokensAux cs []
    else tokensAux cs (c :: acc)

/-- Python `str.split()` (no argument): whitespace tokenisation. -/
def pySplit (s : String) : List String := (tokensAux s.data []).map String.mk

/-- Consume a literal prefix, returning the remainder on success. -/
def eatLit : List Char → List Char → Option (List Char)
  | [], l => some l
  | _ :: _, [] => none
  | p :: ps, c :: cs => if c == p then eatLit ps cs else none

/-- Fueled worker for Python `str.split(sep)` with non-empty `sep`
(the fuel is the length of the scanned list, which bounds the recursion). -/
def splitOnFuel (sep : List Char) : Nat → List Char → List Char → List (List Char)
  | _, [], acc => [acc.reverse]
  | 0, l, acc => [acc.reverse ++ l]
  | Nat.succ fuel, c :: cs, acc =>
    match eatLit sep (c :: cs) with
    | some rest => acc.reverse :: splitOnFuel sep fuel rest []
    | none => splitOnFuel sep fuel cs (c :: acc)

/-- Python `s.split(sep)` for a literal separator. -/
def pySplitOnStr (s sep : String) : List String :=
  match sep.data with
  | [] => [s]
  | c :: cs => (splitOnFuel (c :: cs) s.data.length s.data []).map String.mk

/-! ### Dictionaries (insertion ordered, unique keys) -/

/-- First-match association-list lookup: Python `d[k]` / `k in d`. -/
def alookup {α : Type} : List (String × α) → String → Option α
  | [], _ => none
  | p :: ps, k => if p.1 == k then some p.2 else alookup ps k

/-- Python `d.__contains__`. -/
def hasKey {α : Type} (m : List (String × α)) (k : String) : Bool :=
  m.any (fun p => p.1 == k)

/-- Python `d[k] = v`: replace in place if the key exists, else append. -/
def dictInsert {α : Type} (m : List (String × α)) (k : String) (v : α) :
    List (String × α) :=
  if m.any (fun p => p.1 == k) then m.map (fun p => if p.1 == k then (k, v) else p)
  else m ++ [(k, v)]

abbrev KeywordDict := List (String × List String)
abbrev NameMap := List (String × String)

/-! ### Data model -/

/-- A calendar date as produced by `datetime.strptime(..., "%b %d, %Y").date()`. -/
structure PDate where
  year : Nat
  month : Nat
  day : Nat
deriving DecidableEq

/-- One row of the transaction data frame.  `category` is `none` until the
`Category` column has been assigned. -/
structure Row where
  date : PDate
  name : String
  dc : String        -- the "Debit/Credit" column
  amount : Nat       -- cents
  category : Option String
deriving DecidableEq

/-! ### Category defaults (`default_keywords` in the source) -/

def default_keywords : KeywordDict :=
  [("Food", ["zomato", "swiggy", "restaurant", "pizza"]),
   ("Groceries", ["d-mart", "big bazaar", "grocery"]),
   ("Recharge/Bill", ["recharge", "electricity", "mobile", "water"]),
   ("Shopping", ["amazon", "flipkart", "myntra"]),
   ("Entertainment", ["netflix", "hotstar", "spotify"]),
   ("Transport", ["uber", "ola", "fuel", "metro"]),
   ("Education", ["institute", "college", "fees"]),
   ("Health", ["pharmacy", "hospital", "clinic"]),
   ("Other", [])]

/-! ### Categorization (`categorize_transactions`) -/

/-- `name.lower().strip()` — the normalized name used for lookup. -/
def normName (name : String) : String := pyStrip (pyLower name)

/-- `any(keyword.lower() in name_lower for keyword in keywords)`. -/
def catMatches (name_lower : String) (keywords : List String) : Bool :=
  keywords.any (fun kw => strContains name_lower (pyLower kw))

/-- The `for category, keywords in keyword_dict.items()` loop with the
`matched` flag: first matching category wins, else `"Other"`. -/
def scanCats (name_lower : String) : KeywordDict → String
  | [] => "Other"
  | p :: ps => if catMatches name_lower p.2 then p.1 else scanCats name_lower ps

/-- The category computed for a single `Name` cell. -/
def categorize_one (keyword_dict : KeywordDict) (name_map : NameMap)
    (name : String) : String :=
  let name_lower := normName name
  match alookup name_map name_lower with
  | some c => c
  | none => scanCats name_lower keyword_dict

/-- `categorize_transactions(df, keyword_dict, name_map)`: build the category
list from `df["Name"]` and assign `df["Category"]` (the Python function
mutates `df` in place and returns it; the returned list is the frame's state
after the call). -/
def categorize_transactions (df : List Row) (keyword_dict : KeywordDict)
    (name_map : NameMap) : List Row :=
  df.map (fun r => { r with category := some (categorize_one keyword_dict name_map r.name) })


/-! ### Learning from user corrections (`main`, the per-row edit loop) -/

/-- The in-session state owned by the categorization engine:
`st.session_state.keyword_dict` and `st.session_state.name_to_category`. -/
structure Session where
  keyword_dict : KeywordDict
  name_to_category : NameMap
deriving DecidableEq

/-- One `if word not in keyword_dict[new_cat]: keyword_dict[new_cat].append(word)`
step, applied to the unique entry for `cat` (the model maps every entry whose
key equals `cat`, as replacing a dict value does). -/
def addWord (kd : KeywordDict) (cat word : String) : KeywordDict :=
  kd.map (fun p =>
    if p.1 == cat then (p.1, if p.2.contains word then p.2 else p.2 ++ [word]) else p)

/-- The `for word in words` loop. -/
def addWords (kd : KeywordDict) (cat : String) (ws : List String) : KeywordDict :=
  ws.foldl (fun k w => addWord k cat w) kd

/-- The learning effects for one edited row (`app.py` lines 256–266):
add the category if missing, upsert `name_to_category[name.lower()]`, and
append the unseen whitespace tokens of `name.lower()`. -/
def learn_update (st : Session) (name new_cat : String) : Session :=
  let kd0 := if st.keyword_dict.any (fun p => p.1 == new_cat) then st.keyword_dict
             else st.keyword_dict ++ [(new_cat, [])]
  { keyword_dict := addWords kd0 new_cat (pySplit (pyLower name))
    name_to_category := dictInsert st.name_to_category (pyLower name) new_cat }

/-- The guard `if new_cat != old_cat and new_cat.strip():` around the learning
effects. -/
def learn_step (st : Session) (old_cat new_cat name : String) : Session :=
  if new_cat ≠ old_cat ∧ pyStrip new_cat ≠ "" then learn_update st name new_cat else st

/-- The whole edit loop: one `learn_step` per row, in row order.  Each triple
is `(old category, new category, name)`. -/
def learnAll (st : Session) (edits : List (String × String × String)) : Session :=
  edits.foldl (fun s e => learn_step s e.1 e.2.1 e.2.2) st

/-- The tokens a run of `addWords` actually appends, in first-seen order:
`freshTokensFn base ws` are the members of `ws` not already in `base`,
deduplicated, in order of first occurrence. -/
def freshTokensFn (base : List String) : List String → List String
  | [] => []
  | w :: ws => if w ∈ base then freshTokensFn base ws
               else w :: freshTokensFn (base ++ [w]) ws

/-! ### Line classifier (`is_transaction_line`) -/

/-- The character classes of the anchored head
`^[A-Za-z]{3} \d{2}, \d{4} ` of the transaction-line regex. -/
def headClasses : List (Char → Bool) :=
  [Char.isAlpha, Char.isAlpha, Char.isAlpha, fun c => c == ' ',
   Char.isDigit, Char.isDigit, fun c => c == ',', fun c => c == ' ',
   Char.isDigit, Char.isDigit, Char.isDigit, Char.isDigit, fun c => c == ' ']

/-- Consume one character per character class. -/
def consumeClasses : List (Char → Bool) → List Char → Option (List Char)
  | [], l => some l
  | _ :: _, [] => none
  | p :: ps, c :: cs => if p c then consumeClasses ps cs else none

/-- Does the list start with the literal `p` followed by a digit? -/
def digitAfter (p l : List Char) : Bool :=
  match eatLit p l with
  | some (c :: _) => c.isDigit
  | _ => false

/-- Does the list start with ` (Debit|Credit) INR \d`? -/
def dcCheck (l : List Char) : Bool :=
  digitAfter (" Debit INR ").data l || digitAfter (" Credit INR ").data l

/-- Search for ` (Debit|Credit) INR \d` after a (newline-free, `.*`) gap. -/
def scanDC : List Char → Bool
  | [] => false
  | c :: cs => dcCheck (c :: cs) || (c != '\n' && scanDC cs)

/-- `re.match(r'^[A-Za-z]{3} \d{2}, \d{4} .* (Debit|Credit) INR \d', line)`
as a Boolean: the line classifier. -/
def is_transaction_line (line : String) : Bool :=
  match consumeClasses headClasses line.data with
  | some rest => scanDC rest
  | none => false

/-! ### Field extractor (per-line body of `parse_phonepe_pdf`) -/

/-- `re.search(r'^([A-Za-z]{3} \d{2}, \d{4})', line)`: the three captured
components (month token, day digits, year digits) when the anchored date
pattern matches. -/
def dateMatch (l : List Char) : Option (String × String × String) :=
  match l with
  | m1 :: m2 :: m3 :: s1 :: d1 :: d2 :: c1 :: s2 :: y1 :: y2 :: y3 :: y4 :: _ =>
    if m1.isAlpha && m2.isAlpha && m3.isAlpha && s1 == ' ' && d1.isDigit && d2.isDigit
        && c1 == ',' && s2 == ' ' && y1.isDigit && y2.isDigit && y3.isDigit && y4.isDigit
    then some (String.mk [m1, m2, m3], String.mk [d1, d2], String.mk [y1, y2, y3, y4])
    else none
  | _ => none

/-- The month-abbreviation table of `strptime`'s `%b` directive
(matched case-insensitively). -/
def monthTable : List (String × Nat) :=
  [("jan", 1), ("feb", 2), ("mar", 3), ("apr", 4), ("may", 5), ("jun", 6),
   ("jul", 7), ("aug", 8), ("sep", 9), ("oct", 10), ("nov", 11), ("dec", 12)]

def isLeap (y : Nat) : Bool := y % 4 == 0 && (y % 100 != 0 || y % 400 == 0)

def daysInMonth (y m : Nat) : Nat :=
  if m == 2 then (if isLeap y then 29 else 28)
  else if m == 4 || m == 6 || m == 9 || m == 11 then 30
  else 31

/-- The numeric value of a digit string. -/
def natOfDigits (l : List Char) : Nat :=
  l.foldl (fun n c => n * 10 + (c.toNat - '0'.toNat)) 0

/-- `datetime.strptime(f"{mon} {day}, {yr}", "%b %d, %Y").date()`:
`none` models the `ValueError` that the per-line `except` turns into a drop. -/
def strptimeBDY (mon dayS yrS : String) : Option PDate :=
  match alookup monthTable (pyLower mon) with
  | none => none
  | some m =>
    let d := natOfDigits dayS.data
    let y := natOfDigits yrS.data
    if 1 ≤ y ∧ 1 ≤ d ∧ d ≤ daysInMonth y m then some ⟨y, m, d⟩ else none

/-- The date computed for a line (regex capture then `strptime`). -/
def dateOfLine (line : String) : Option PDate :=
  match dateMatch line.data with
  | some (ms, ds, ys) => strptimeBDY ms ds ys
  | none => none

/-- Try `INR ([\d,]+\.\d{2})` at the head of the list, returning the capture.
Within one start position the regex is deterministic: `[\d,]+` must be the
maximal digit-and-comma run, because a shorter run would be followed by a
`[\d,]` character, never by the required `.`. -/
def amountAt (l : List Char) : Option (List Char) :=
  match eatLit ("INR ").data l with
  | none => none
  | some r =>
    let run := r.takeWhile (fun c => c.isDigit || c == ',')
    match run, r.dropWhile (fun c => c.isDigit || c == ',') with
    | [], _ => none
    | _ :: _, '.' :: a :: b :: _ =>
      if a.isDigit && b.isDigit then some (run ++ '.' :: a :: [b]) else none
    | _, _ => none

/-- `re.search(r'INR ([\d,]+\.\d{2})', line)`: leftmost match's capture. -/
def findAmount : List Char → Option (List Char)
  | [] => none
  | c :: cs =>
    match amountAt (c :: cs) with
    | some g => some g
    | none => findAmount cs

/-- `.replace(",", "")` on the captured amount. -/
def stripCommas (l : List Char) : List Char := l.filter (fun c => c != ',')

/-- The exact value in cents of a comma-free `digits.dd` literal
(`float(...)` of such a literal denotes this value over 100). -/
def decCents (l : List Char) : Nat :=
  natOfDigits (l.takeWhile (fun c => c != '.')) * 100
    + natOfDigits ((l.dropWhile (fun c => c != '.')).drop 1)

/-- `float(amount_match.group(1).replace(",", ""))`, in cents. -/
def amountCents (g : List Char) : Nat := decCents (stripCommas g)

/-- The per-line `try` body of `parse_phonepe_pdf`: date capture and
`strptime` (failure drops the line), then name, direction and amount, each of
which degrades to a default instead of failing. -/
def parse_line (line : String) : Option Row :=
  match dateMatch line.data with
  | none => none
  | some (ms, ds, ys) =>
    match strptimeBDY ms ds ys with
    | none => none
    | some date =>
      let name :=
        if strContains line "Paid to" then
          pyStrip ((pySplitOnStr ((pySplitOnStr line "Paid to").getD 1 "") "Debit").getD 0 "")
        else if strContains line "Received from" then
          pyStrip ((pySplitOnStr ((pySplitOnStr line "Received from").getD 1 "") "Credit").getD 0 "")
        else "Unknown"
      let dc := if strContains line "Debit" then "Debit" else "Credit"
      let amount :=
        match findAmount line.data with
        | some g => amountCents g
        | none => 0
      some { date := date, name := name, dc := dc, amount := amount, category := none }

/-- `parse_phonepe_pdf` restricted to the already-extracted text lines:
keep the classifier-accepted lines, drop the ones whose parse fails. -/
def parse_pdf_lines (lines : List String) : List Row :=
  (lines.filter (fun l => is_transaction_line l)).filterMap parse_line

/-! ### The debit filter and initial categorization in `main` -/

/-- `df[df["Debit/Credit"] == "Debit"].copy()`. -/
def debitsOf (rows : List Row) : List Row := rows.filter (fun r => r.dc == "Debit")

/-- The initial categorization pass of `main`. -/
def initialCategorized (rows : List Row) (kd : KeywordDict) (nm : NameMap) : List Row :=
  categorize_transactions (debitsOf rows) kd nm

/-! ### CSV export (`edited_df.to_csv(index=False)`) -/

/-- `repr` of a small non-negative Python float holding `cents / 100`:
the two-decimal form with trailing fractional zeros removed, keeping at
least one fractional digit (`450.00 ↦ "450.0"`, `1200.50 ↦ "1200.5"`,
`34.56 ↦ "34.56"`, `12.05 ↦ "12.05"`). -/
def fracRepr (f : Nat) : String :=
  if f % 10 == 0 then Nat.repr (f / 10)
  else if f < 10 then "0" ++ Nat.repr f
  else Nat.repr f

def pyFloatRepr (cents : Nat) : String :=
  Nat.repr (cents / 100) ++ "." ++ fracRepr (cents % 100)

def padNum (w n : Nat) : String :=
  let s := Nat.repr n
  String.mk (List.replicate (w - s.length) '0') ++ s

/-- `str()` of a `datetime.date`: ISO-8601 `YYYY-MM-DD`. -/
def isoDate (d : PDate) : String :=
  padNum 4 d.year ++ "-" ++ padNum 2 d.month ++ "-" ++ padNum 2 d.day

/-- csv QUOTE_MINIMAL: quote a field iff it holds a delimiter, quote or
line break. -/
def needsQuote (s : String) : Bool :=
  s.data.any (fun c => c == ',' || c == '"' || c == '\n' || c == '\r')

def escQuotes (l : List Char) : List Char :=
  l.foldr (fun c acc => if c == '"' then '"' :: '"' :: acc else c :: acc) []

def csvField (s : String) : String :=
  if needsQuote s then "\"" ++ String.mk (escQuotes s.data) ++ "\"" else s

/-- One serialized data row, fields in data-frame column order. -/
def rowCsv (r : Row) : String :=
  csvField (isoDate r.date) ++ "," ++ csvField r.name ++ "," ++ csvField r.dc ++ ","
    ++ csvField (pyFloatRepr r.amount) ++ "," ++ csvField (r.category.getD "")

/-- `df.to_csv(index=False)` for a categorized frame (POSIX line ends). -/
def to_csv (rows : List Row) : String :=
  "Date,Name,Debit/Credit,Amount,Category\n"
    ++ String.join (rows.map (fun r => rowCsv r ++ "\n"))


/-! ### Spec-side predicate for the line-classifier claim

Modelled from the claim's words, to be compared with `is_transaction_line`:
the line begins with `<3-letter month abbreviation> <2-digit day>, <4-digit
year>`, followed eventually by the token `Debit` or `Credit`, followed by the
token `INR` and at least one digit. -/

def monthAbbrevs : List String :=
  ["Jan", "Feb", "Mar", "Apr", "May", "Jun", "Jul", "Aug", "Sep", "Oct", "Nov", "Dec"]

def claimC6LinePred (line : String) : Prop :=
  ∃ mon dayS yrS rest, line = mon ++ " " ++ dayS ++ ", " ++ yrS ++ rest ∧
    mon ∈ monthAbbrevs ∧
    dayS.data.length = 2 ∧ dayS.data.all Char.isDigit = true ∧
    yrS.data.length = 4 ∧ yrS.data.all Char.isDigit = true ∧
    ∃ pre dcTok mids post, pySplit rest = pre ++ dcTok :: (mids ++ "INR" :: post) ∧
      (dcTok = "Debit" ∨ dcTok = "Credit") ∧
      ∃ t ∈ post, ∃ c ∈ t.data, c.isDigit = true

/-- Number of characters after the first `.` of a rendered decimal. -/
def decimalFracLen (s : String) : Nat :=
  ((s.data.dropWhile (fun c => c != '.')).drop 1).length

/-- Whether a CSV field survives QUOTE_MINIMAL serialization verbatim. -/
abbrev cleanField (s : String) : Prop :=
  ∀ c ∈ s.data, c ≠ ',' ∧ c ≠ '"' ∧ c ≠ '\n' ∧ c ≠ '\r'

/-! ### Helper lemmas: categorization -/

theorem categorize_transactions_length (kd : KeywordDict) (nm : NameMap)
    (rows : List Row) :
    (categorize_transactions rows kd nm).length = rows.length := by
  simp [categorize_transactions]

theorem categorize_categories (kd : KeywordDict) (nm : NameMap) (rows : List Row) :
    (categorize_transactions rows kd nm).map (fun r => r.category)
      = (rows.map (fun r => r.name)).map (fun n => some (categorize_one kd nm n)) := by
  simp only [categorize_transactions, List.map_map]
  rfl

theorem scanCats_spec (nl : String) (kd : KeywordDict) :
    (∃ pre entry post, kd = pre ++ entry :: post ∧ catMatches nl entry.2 = true ∧
        (∀ q ∈ pre, catMatches nl q.2 = false) ∧ scanCats nl kd = entry.1)
    ∨ ((∀ q ∈ kd, catMatches nl q.2 = false) ∧ scanCats nl kd = "Other") := by
  induction kd with
  | nil => right; exact ⟨by simp, rfl⟩
  | cons p ps ih =>
    cases hp : catMatches nl p.2 with
    | true =>
      left
      exact ⟨[], p, ps, rfl, hp, by simp, by simp [scanCats, hp]⟩
    | false =>
      have hstep : scanCats nl (p :: ps) = scanCats nl ps := by simp [scanCats, hp]
      rcases ih with ⟨pre, entry, post, hkd, hm, hpre, hres⟩ | ⟨hall, hres⟩
      · left
        refine ⟨p :: pre, entry, post, by simp [hkd], hm, ?_, by rw [hstep]; exact hres⟩
        intro q hq
        rcases List.mem_cons.mp hq with rfl | hq
        · exact hp
        · exact hpre q hq
      · right
        refine ⟨?_, by rw [hstep]; exact hres⟩
        intro q hq
        rcases List.mem_cons.mp hq with rfl | hq
        · exact hp
        · exact hall q hq

/-! ### C1 -/

/-- C1: if the normalized (lowercased, trimmed) name of a transaction is a key
of the name map, `categorize_transactions` assigns that transaction exactly
the mapped category, for every keyword ruleset. -/
theorem c1_exact_match_precedence (kd : KeywordDict) (nm : NameMap)
    (rows : List Row) (i : Fin rows.length) (c : String)
    (h : alookup nm (normName (rows.get i).name) = some c) :
    ((categorize_transactions rows kd nm).get
        (Fin.cast (categorize_transactions_length kd nm rows).symm i)).category
      = some c := by
  rcases i with ⟨iv, hv⟩
  simp only [categorize_transactions, List.get_eq_getElem, Fin.cast_mk,
    List.getElem_map]
  simp only [List.get_eq_getElem] at h
  simp [categorize_one, h]

theorem c1_witness :
    alookup [("john doe", "Rent")]
        (normName (([⟨⟨2024, 1, 15⟩, " John Doe ", "Debit", 0, none⟩] : List Row).get
          ⟨0, by decide⟩).name) = some "Rent"
    ∧ ((categorize_transactions [⟨⟨2024, 1, 15⟩, " John Doe ", "Debit", 0, none⟩]
          default_keywords [("john doe", "Rent")]).get
        (Fin.cast (categorize_transactions_length default_keywords [("john doe", "Rent")]
          [⟨⟨2024, 1, 15⟩, " John Doe ", "Debit", 0, none⟩]).symm ⟨0, by decide⟩)).category
      = some "Rent" :=
  ⟨by decide,
   c1_exact_match_precedence default_keywords [("john doe", "Rent")]
     [⟨⟨2024, 1, 15⟩, " John Doe ", "Debit", 0, none⟩] ⟨0, by decide⟩ "Rent" (by decide)⟩

/-! ### C2 -/

/-- C2: when the normalized name is not a key of the name map, the assigned
category is produced by scanning the ruleset's categories in their stored
order: the first category with a keyword that is a case-insensitive substring
of the normalized name wins, and if no category matches the result is
`"Other"`. -/
theorem c2_keyword_scan_first_match (kd : KeywordDict) (nm : NameMap) (name : String)
    (h : alookup nm (normName name) = none) :
    (∃ pre entry post, kd = pre ++ entry :: post ∧
        catMatches (normName name) entry.2 = true ∧
        (∀ q ∈ pre, catMatches (normName name) q.2 = false) ∧
        categorize_one kd nm name = entry.1)
    ∨ ((∀ q ∈ kd, catMatches (normName name) q.2 = false) ∧
        categorize_one kd nm name = "Other") := by
  have hone : categorize_one kd nm name = scanCats (normName name) kd := by
    simp [categorize_one, h]
  rw [hone]
  exact scanCats_spec (normName name) kd

theorem c2_witness :
    (∃ pre entry post, ([] : KeywordDict) = pre ++ entry :: post ∧
        catMatches (normName "x") entry.2 = true ∧
        (∀ q ∈ pre, catMatches (normName "x") q.2 = false) ∧
        categorize_one [] [] "x" = entry.1)
    ∨ ((∀ q ∈ ([] : KeywordDict), catMatches (normName "x") q.2 = false) ∧
        categorize_one [] [] "x" = "Other") :=
  c2_keyword_scan_first_match [] [] "x" (by decide)

/-! ### C5 -/

/-- C5 (counterexample): `categorize_transactions` does not leave its input
batch unchanged — the Python function assigns `df["Category"]` in place, so
after the call the caller's frame differs from what was passed in. -/
theorem c5_counterexample :
    categorize_transactions [⟨⟨2023, 7, 4⟩, "John Doe", "Debit", 0, none⟩]
        default_keywords []
      ≠ [⟨⟨2023, 7, 4⟩, "John Doe", "Debit", 0, none⟩] := by decide

/-- C5 (amended): `categorize_transactions` reads the keyword ruleset and the
name map without modifying them, is deterministic, preserves every
non-`Category` field of every row, and is idempotent: re-categorizing an
already categorized batch reproduces it exactly.  Its only effect is the
in-place `Category` assignment. -/
theorem c5_categorize_idempotent_frame (rows : List Row) (kd : KeywordDict)
    (nm : NameMap) :
    categorize_transactions (categorize_transactions rows kd nm) kd nm
      = categorize_transactions rows kd nm
    ∧ (categorize_transactions rows kd nm).map (fun r => (r.date, r.name, r.dc, r.amount))
      = rows.map (fun r => (r.date, r.name, r.dc, r.amount)) := by
  constructor
  · simp only [categorize_transactions, List.map_map]
    rfl
  · simp only [categorize_transactions, List.map_map]
    rfl

/-! ### C9 -/

/-- C9: the batch that gets categorized (and then summarized and exported) is
the debit-only filter of the loaded frame: every row of the initial
categorization has direction `"Debit"`, the categorized batch has exactly one
row per debit row, and no non-debit row passes the filter. -/
theorem c9_debit_only_invariant (rows : List Row) (kd : KeywordDict) (nm : NameMap) :
    (∀ r ∈ initialCategorized rows kd nm, r.dc = "Debit")
    ∧ (initialCategorized rows kd nm).length
        = (rows.filter (fun r => r.dc == "Debit")).length
    ∧ ∀ r ∈ rows, r.dc ≠ "Debit" → r ∉ debitsOf rows := by
  refine ⟨?_, ?_, ?_⟩
  · intro r hr
    simp only [initialCategorized, categorize_transactions, List.mem_map] at hr
    rcases hr with ⟨r0, hr0, rfl⟩
    have hd : r0.dc = "Debit" := by
      have := (List.mem_filter.mp hr0).2
      simpa [debitsOf] using this
    simpa using hd
  · simp [initialCategorized, categorize_transactions, debitsOf]
  · intro r _ hne hmem
    have := (List.mem_filter.mp hmem).2
    exact hne (by simpa using this)

theorem c9_witness :
    (⟨⟨2024, 1, 15⟩, "John Doe", "Credit", 120050, none⟩ : Row)
      ∉ debitsOf [⟨⟨2023, 7, 4⟩, "Zomato", "Debit", 45000, none⟩,
                  ⟨⟨2024, 1, 15⟩, "John Doe", "Credit", 120050, none⟩] :=
  (c9_debit_only_invariant
      [⟨⟨2023, 7, 4⟩, "Zomato", "Debit", 45000, none⟩,
       ⟨⟨2024, 1, 15⟩, "John Doe", "Credit", 120050, none⟩]
      default_keywords []).2.2 _ (by decide) (by decide)

/-! ### C10 -/

/-- C10: the assigned categories depend only on the `Name` column (and the
ruleset and name map): frames with element-wise equal names receive
element-wise equal categories, whatever their dates, amounts or directions. -/
theorem c10_category_depends_only_on_name (kd : KeywordDict) (nm : NameMap)
    (rows1 rows2 : List Row)
    (h : rows1.map (fun r => r.name) = rows2.map (fun r => r.name)) :
    (categorize_transactions rows1 kd nm).map (fun r => r.category)
      = (categorize_transactions rows2 kd nm).map (fun r => r.category) := by
  rw [categorize_categories, categorize_categories, h]

theorem c10_witness :
    (categorize_transactions [⟨⟨2023, 7, 4⟩, "Zomato", "Debit", 45000, none⟩]
        default_keywords []).map (fun r => r.category)
      = (categorize_transactions [⟨⟨2024, 1, 1⟩, "Zomato", "Credit", 5, some "Other"⟩]
        default_keywords []).map (fun r => r.category) :=
  c10_category_depends_only_on_name default_keywords [] _ _ (by decide)

/-! ### Helper lemmas: dictionaries -/

theorem alookup_cons_pos {α : Type} {p : String × α} {ps : List (String × α)}
    {k : String} (h : p.1 = k) : alookup (p :: ps) k = some p.2 := by
  simp [alookup, h]

theorem alookup_cons_neg {α : Type} {p : String × α} {ps : List (String × α)}
    {k : String} (h : ¬ p.1 = k) : alookup (p :: ps) k = alookup ps k := by
  simp [alookup, h]

theorem alookup_append_some {α : Type} {m : List (String × α)} {k : String} {v : α}
    (h : alookup m k = some v) (l : List (String × α)) :
    alookup (m ++ l) k = some v := by
  induction m with
  | nil => simp [alookup] at h
  | cons p ps ih =>
    rw [List.cons_append]
    by_cases hc : p.1 = k
    · rw [alookup_cons_pos hc] at h ⊢
      exact h
    · rw [alookup_cons_neg hc] at h ⊢
      exact ih h

theorem alookup_of_any_false {α : Type} {m : List (String × α)} {k : String}
    (h : m.any (fun p => p.1 == k) = false) : alookup m k = none := by
  induction m with
  | nil => rfl
  | cons p ps ih =>
    simp only [List.any_cons, Bool.or_eq_false_iff] at h
    rw [alookup_cons_neg (by simpa using h.1)]
    exact ih h.2

theorem alookup_append_of_none {α : Type} {m : List (String × α)} {k : String}
    (h : alookup m k = none) (l : List (String × α)) :
    alookup (m ++ l) k = alookup l k := by
  induction m with
  | nil => rfl
  | cons p ps ih =>
    rw [List.cons_append]
    by_cases hc : p.1 = k
    · rw [alookup_cons_pos hc] at h
      exact absurd h (by simp)
    · rw [alookup_cons_neg hc] at h ⊢
      exact ih h

theorem any_key_eq_isSome {α : Type} (m : List (String × α)) (k : String) :
    m.any (fun p => p.1 == k) = (alookup m k).isSome := by
  induction m with
  | nil => rfl
  | cons p ps ih =>
    by_cases hc : p.1 = k
    · rw [alookup_cons_pos hc]
      simp [hc]
    · rw [alookup_cons_neg hc]
      simp [hc, ih]

theorem alookup_mapReplace_other {α : Type} (m : List (String × α)) (k : String)
    (v : α) (c : String) (h : ¬ k = c) :
    alookup (m.map (fun p => if p.1 == k then (k, v) else p)) c = alookup m c := by
  induction m with
  | nil => rfl
  | cons p ps ih =>
    rw [List.map_cons]
    by_cases hc : p.1 = k
    · rw [if_pos (by simp [hc])]
      rw [alookup_cons_neg (by simpa using h), alookup_cons_neg (by rw [hc]; exact h)]
      exact ih
    · rw [if_neg (by simp [hc])]
      by_cases hck : p.1 = c
      · rw [alookup_cons_pos hck, alookup_cons_pos hck]
      · rw [alookup_cons_neg hck, alookup_cons_neg hck]
        exact ih

theorem alookup_mapReplace_self {α : Type} (m : List (String × α)) (k : String)
    (v : α) (h : m.any (fun p => p.1 == k) = true) :
    alookup (m.map (fun p => if p.1 == k then (k, v) else p)) k = some v := by
  induction m with
  | nil => simp at h
  | cons p ps ih =>
    rw [List.map_cons]
    by_cases hc : p.1 = k
    · rw [if_pos (by simp [hc])]
      exact alookup_cons_pos rfl
    · rw [if_neg (by simp [hc])]
      rw [alookup_cons_neg hc]
      simp only [List.any_cons] at h
      have : ps.any (fun p => p.1 == k) = true := by
        rcases Bool.or_eq_true_iff.mp h with h1 | h2
        · exact absurd (by simpa using h1) hc
        · exact h2
      exact ih this

theorem dictInsert_of_any_true {α : Type} {m : List (String × α)} {k : String}
    (v : α) (h : m.any (fun p => p.1 == k) = true) :
    dictInsert m k v = m.map (fun p => if p.1 == k then (k, v) else p) := by
  simp [dictInsert, h]

theorem dictInsert_of_any_false {α : Type} {m : List (String × α)} {k : String}
    (v : α) (h : m.any (fun p => p.1 == k) = false) :
    dictInsert m k v = m ++ [(k, v)] := by
  simp [dictInsert, h]

theorem alookup_dictInsert_self {α : Type} (m : List (String × α)) (k : String)
    (v : α) : alookup (dictInsert m k v) k = some v := by
  cases hany : m.any (fun p => p.1 == k)
  · rw [dictInsert_of_any_false v hany,
      alookup_append_of_none (alookup_of_any_false hany)]
    exact alookup_cons_pos rfl
  · rw [dictInsert_of_any_true v hany]
    exact alookup_mapReplace_self m k v hany

theorem alookup_dictInsert_other {α : Type} (m : List (String × α)) (k : String)
    (v : α) (c : String) (h : ¬ k = c) :
    alookup (dictInsert m k v) c = alookup m c := by
  cases hany : m.any (fun p => p.1 == k)
  · rw [dictInsert_of_any_false v hany]
    cases hm : alookup m c with
    | none =>
      rw [alookup_append_of_none hm, alookup_cons_neg h]
      rfl
    | some w => rw [alookup_append_some hm]
  · rw [dictInsert_of_any_true v hany]
    exact alookup_mapReplace_other m k v c h

theorem any_key_map_replace {α : Type} (m : List (String × α)) (k : String) (v : α) :
    (m.map (fun p => if p.1 == k then (k, v) else p)).any (fun p => p.1 == k)
      = m.any (fun p => p.1 == k) := by
  induction m with
  | nil => rfl
  | cons p ps ih =>
    rw [List.map_cons]
    by_cases hc : p.1 = k
    · rw [if_pos (by simp [hc])]
      simp [hc]
    · rw [if_neg (by simp [hc])]
      rw [List.any_cons, List.any_cons, ih]

theorem mapReplace_no_key {α : Type} {m : List (String × α)} {k : String} (v : α)
    (h : ∀ p ∈ m, ¬ p.1 = k) :
    m.map (fun p => if p.1 == k then (k, v) else p) = m := by
  induction m with
  | nil => rfl
  | cons p ps ih =>
    rw [List.map_cons, if_neg (by simp [h p (by simp)])]
    rw [ih (fun q hq => h q (by simp [hq]))]

theorem dictInsert_dictInsert {α : Type} (m : List (String × α)) (k : String)
    (v : α) : dictInsert (dictInsert m k v) k v = dictInsert m k v := by
  cases hany : m.any (fun p => p.1 == k)
  · rw [dictInsert_of_any_false v hany]
    have hnotin : ∀ p ∈ m, ¬ p.1 = k := by
      intro p hp hc
      have : m.any (fun p => p.1 == k) = true :=
        List.any_eq_true.mpr ⟨p, hp, by simp [hc]⟩
      rw [hany] at this
      exact Bool.false_ne_true this
    have hany2 : (m ++ [(k, v)]).any (fun p => p.1 == k) = true := by
      simp [List.any_append]
    rw [dictInsert_of_any_true v hany2, List.map_append, mapReplace_no_key v hnotin]
    have hone : ([(k, v)].map (fun p => if p.1 == k then (k, v) else p)) = [(k, v)] := by
      simp
    rw [hone]
  · rw [dictInsert_of_any_true v hany]
    have hany2 : (m.map (fun p => if p.1 == k then (k, v) else p)).any
        (fun p => p.1 == k) = true := by
      rw [any_key_map_replace]
      exact hany
    rw [dictInsert_of_any_true v hany2, List.map_map]
    apply List.map_congr_left
    intro p _
    by_cases hc : p.1 = k
    · simp [Function.comp, hc]
    · simp [Function.comp, hc]

/-! ### Helper lemmas: keyword-list updates -/

theorem strList_contains_iff (l : List String) (w : String) :
    l.contains w = true ↔ w ∈ l := by
  induction l with
  | nil => simp
  | cons x xs ih =>
    rw [List.contains_cons, Bool.or_eq_true]
    constructor
    · rintro (h1 | h2)
      · exact List.mem_cons.mpr (Or.inl (by simpa using h1))
      · exact List.mem_cons.mpr (Or.inr (ih.mp h2))
    · intro h
      rcases List.mem_cons.mp h with rfl | hm
      · exact Or.inl (by simp)
      · exact Or.inr (ih.mpr hm)

theorem addWords_nil (kd : KeywordDict) (cat : String) : addWords kd cat [] = kd := rfl

theorem addWords_cons (kd : KeywordDict) (cat w : String) (ws : List String) :
    addWords kd cat (w :: ws) = addWords (addWord kd cat w) cat ws := rfl

theorem addWord_nil (cat w : String) : addWord [] cat w = [] := rfl

theorem addWord_cons (p : String × List String) (ps : KeywordDict) (cat w : String) :
    addWord (p :: ps) cat w
      = (if p.1 == cat then (p.1, if p.2.contains w then p.2 else p.2 ++ [w]) else p)
          :: addWord ps cat w := rfl

theorem alookup_addWord_self (kd : KeywordDict) (cat w : String) (l : List String)
    (h : alookup kd cat = some l) :
    alookup (addWord kd cat w) cat = some (if l.contains w then l else l ++ [w]) := by
  induction kd with
  | nil => simp [alookup] at h
  | cons p ps ih =>
    rw [addWord_cons]
    by_cases hc : p.1 = cat
    · rw [alookup_cons_pos hc] at h
      have hpl : p.2 = l := Option.some.inj h
      rw [if_pos (by simp [hc])]
      rw [alookup_cons_pos (show (p.1, if p.2.contains w then p.2 else p.2 ++ [w]).1 = cat from hc)]
      rw [hpl]
    · rw [alookup_cons_neg hc] at h
      rw [if_neg (by simp [hc]), alookup_cons_neg hc]
      exact ih h

theorem alookup_addWord_other (kd : KeywordDict) (cat w c : String)
    (h : ¬ cat = c) : alookup (addWord kd cat w) c = alookup kd c := by
  induction kd with
  | nil => rfl
  | cons p ps ih =>
    rw [addWord_cons]
    by_cases hc : p.1 = cat
    · have hpc : ¬ p.1 = c := by rw [hc]; exact h
      rw [if_pos (by simp [hc])]
      rw [alookup_cons_neg (show ¬ (p.1, if p.2.contains w then p.2 else p.2 ++ [w]).1 = c from hpc)]
      rw [alookup_cons_neg hpc]
      exact ih
    · rw [if_neg (by simp [hc])]
      by_cases hck : p.1 = c
      · rw [alookup_cons_pos hck, alookup_cons_pos hck]
      · rw [alookup_cons_neg hck, alookup_cons_neg hck]
        exact ih

theorem alookup_addWord_grow (kd : KeywordDict) (cat w c : String) (l : List String)
    (h : alookup kd c = some l) :
    ∃ l2, alookup (addWord kd cat w) c = some l2 ∧ l ⊆ l2 := by
  by_cases hc : cat = c
  · subst hc
    refine ⟨if l.contains w then l else l ++ [w], alookup_addWord_self kd cat w l h, ?_⟩
    by_cases hw : l.contains w = true
    · rw [if_pos hw]
      exact List.Subset.refl l
    · rw [if_neg hw]
      exact List.subset_append_left l [w]
  · exact ⟨l, by rw [alookup_addWord_other kd cat w c hc]; exact h, List.Subset.refl l⟩

theorem alookup_addWords_grow (ws : List String) (kd : KeywordDict) (cat c : String)
    (l : List String) (h : alookup kd c = some l) :
    ∃ l2, alookup (addWords kd cat ws) c = some l2 ∧ l ⊆ l2 := by
  induction ws generalizing kd l with
  | nil => exact ⟨l, h, List.Subset.refl l⟩
  | cons w ws ih =>
    rw [addWords_cons]
    obtain ⟨l1, h1, hs1⟩ := alookup_addWord_grow kd cat w c l h
    obtain ⟨l2, h2, hs2⟩ := ih (addWord kd cat w) l1 h1
    exact ⟨l2, h2, List.Subset.trans hs1 hs2⟩

theorem alookup_addWords_self (ws : List String) : ∀ (kd : KeywordDict)
    (cat : String) (base : List String), alookup kd cat = some base →
    alookup (addWords kd cat ws) cat = some (base ++ freshTokensFn base ws) := by
  induction ws with
  | nil =>
    intro kd cat base h
    rw [addWords_nil, freshTokensFn, List.append_nil]
    exact h
  | cons w ws ih =>
    intro kd cat base h
    rw [addWords_cons, freshTokensFn]
    by_cases hw : w ∈ base
    · rw [if_pos hw]
      have hcont : base.contains w = true := (strList_contains_iff base w).mpr hw
      have hstep : alookup (addWord kd cat w) cat = some base := by
        rw [alookup_addWord_self kd cat w base h, if_pos hcont]
      exact ih (addWord kd cat w) cat base hstep
    · rw [if_neg hw]
      have hcont : ¬ base.contains w = true := fun hc => hw ((strList_contains_iff base w).mp hc)
      have hstep : alookup (addWord kd cat w) cat = some (base ++ [w]) := by
        rw [alookup_addWord_self kd cat w base h, if_neg hcont]
      have := ih (addWord kd cat w) cat (base ++ [w]) hstep
      rw [this]
      simp [List.append_assoc]

theorem alookup_addWords_other (ws : List String) (kd : KeywordDict) (cat c : String)
    (h : ¬ cat = c) : alookup (addWords kd cat ws) c = alookup kd c := by
  induction ws generalizing kd with
  | nil => rfl
  | cons w ws ih =>
    rw [addWords_cons, ih (addWord kd cat w), alookup_addWord_other kd cat w c h]

theorem mem_base_fresh (ws : List String) : ∀ (base : List String) (w : String),
    w ∈ ws → w ∈ base ++ freshTokensFn base ws := by
  induction ws with
  | nil => intro base w h; simp at h
  | cons x xs ih =>
    intro base w h
    rw [freshTokensFn]
    by_cases hx : x ∈ base
    · rw [if_pos hx]
      rcases List.mem_cons.mp h with rfl | hw
      · exact List.mem_append_left _ hx
      · exact ih base w hw
    · rw [if_neg hx]
      rcases List.mem_cons.mp h with rfl | hw
      · exact List.mem_append_right _ (by simp)
      · have := ih (base ++ [x]) w hw
        simp only [List.mem_append, List.mem_cons] at this ⊢
        tauto

theorem addWord_keys (kd : KeywordDict) (cat w : String) :
    (addWord kd cat w).map Prod.fst = kd.map Prod.fst := by
  induction kd with
  | nil => rfl
  | cons p ps ih =>
    rw [addWord_cons, List.map_cons, List.map_cons]
    by_cases hc : p.1 = cat
    · rw [if_pos (by simp [hc])]
      exact congrArg (List.cons p.1) ih
    · rw [if_neg (by simp [hc])]
      exact congrArg (List.cons p.1) ih

theorem addWords_keys (ws : List String) (kd : KeywordDict) (cat : String) :
    (addWords kd cat ws).map Prod.fst = kd.map Prod.fst := by
  induction ws generalizing kd with
  | nil => rfl
  | cons w ws ih => rw [addWords_cons, ih (addWord kd cat w), addWord_keys]

theorem addWord_eq_of_not_key (kd : KeywordDict) (cat w : String)
    (h : ∀ p ∈ kd, ¬ p.1 = cat) : addWord kd cat w = kd := by
  induction kd with
  | nil => rfl
  | cons p ps ih =>
    rw [addWord_cons, if_neg (by simp [h p (by simp)])]
    rw [ih (fun q hq => h q (by simp [hq]))]

theorem addWord_eq_of_mem (kd : KeywordDict) (cat w : String) (l : List String)
    (hnd : (kd.map Prod.fst).Nodup) (h : alookup kd cat = some l) (hw : w ∈ l) :
    addWord kd cat w = kd := by
  induction kd with
  | nil => rfl
  | cons p ps ih =>
    rw [List.map_cons, List.nodup_cons] at hnd
    rw [addWord_cons]
    by_cases hc : p.1 = cat
    · rw [alookup_cons_pos hc] at h
      have hpl : p.2 = l := Option.some.inj h
      have hcont : p.2.contains w = true := (strList_contains_iff p.2 w).mpr (hpl ▸ hw)
      have hnokey : ∀ q ∈ ps, ¬ q.1 = cat := by
        intro q hq hqc
        exact hnd.1 (by
          rw [hc, ← hqc]
          exact List.mem_map.mpr ⟨q, hq, rfl⟩)
      rw [if_pos (by simp [hc]), if_pos hcont, Prod.mk.eta,
        addWord_eq_of_not_key ps cat w hnokey]
    · rw [alookup_cons_neg hc] at h
      rw [if_neg (by simp [hc]), ih hnd.2 h]

theorem addWords_eq_of_all_mem (ws : List String) (kd : KeywordDict) (cat : String)
    (l : List String) (hnd : (kd.map Prod.fst).Nodup) (h : alookup kd cat = some l)
    (hall : ∀ w ∈ ws, w ∈ l) : addWords kd cat ws = kd := by
  induction ws with
  | nil => rfl
  | cons w ws ih =>
    rw [addWords_cons, addWord_eq_of_mem kd cat w l hnd h (hall w (by simp))]
    exact ih (fun x hx => hall x (by simp [hx]))

/-! ### Helper lemmas: the learning step -/

theorem learn_update_kd_eq (st : Session) (name new_cat : String) :
    (learn_update st name new_cat).keyword_dict
      = addWords (if st.keyword_dict.any (fun p => p.1 == new_cat) then st.keyword_dict
          else st.keyword_dict ++ [(new_cat, [])]) new_cat (pySplit (pyLower name)) := rfl

theorem learn_update_nm_eq (st : Session) (name new_cat : String) :
    (learn_update st name new_cat).name_to_category
      = dictInsert st.name_to_category (pyLower name) new_cat := rfl

theorem learn_update_nm (st : Session) (name new_cat : String) :
    alookup (learn_update st name new_cat).name_to_category (pyLower name)
      = some new_cat := by
  rw [learn_update_nm_eq]
  exact alookup_dictInsert_self _ _ _

theorem learn_update_kd (st : Session) (name new_cat : String) :
    ∃ base, ((alookup st.keyword_dict new_cat = some base)
        ∨ (alookup st.keyword_dict new_cat = none ∧ base = []))
      ∧ alookup (learn_update st name new_cat).keyword_dict new_cat
          = some (base ++ freshTokensFn base (pySplit (pyLower name))) := by
  cases hany : st.keyword_dict.any (fun p => p.1 == new_cat)
  · have hkd0 : alookup (st.keyword_dict ++ [(new_cat, [])]) new_cat = some [] := by
      rw [alookup_append_of_none (alookup_of_any_false hany)]
      exact alookup_cons_pos rfl
    refine ⟨[], Or.inr ⟨alookup_of_any_false hany, rfl⟩, ?_⟩
    rw [learn_update_kd_eq, if_neg (by simp [hany])]
    exact alookup_addWords_self _ _ _ _ hkd0
  · have hsome : (alookup st.keyword_dict new_cat).isSome := by
      rw [← any_key_eq_isSome]
      exact hany
    obtain ⟨base, hbase⟩ := Option.isSome_iff_exists.mp hsome
    refine ⟨base, Or.inl hbase, ?_⟩
    rw [learn_update_kd_eq, if_pos hany]
    exact alookup_addWords_self _ _ _ _ hbase

theorem learn_update_kd_other (st : Session) (name new_cat c : String)
    (h : ¬ new_cat = c) :
    alookup (learn_update st name new_cat).keyword_dict c
      = alookup st.keyword_dict c := by
  rw [learn_update_kd_eq]
  cases hany : st.keyword_dict.any (fun p => p.1 == new_cat)
  · rw [if_neg (by simp [hany]), alookup_addWords_other _ _ _ _ h]
    cases hm : alookup st.keyword_dict c with
    | none =>
      rw [alookup_append_of_none hm, alookup_cons_neg h]
      rfl
    | some w => rw [alookup_append_some hm]
  · rw [if_pos rfl, alookup_addWords_other _ _ _ _ h]

theorem learn_update_keys_nodup (st : Session) (name new_cat : String)
    (hnd : (st.keyword_dict.map Prod.fst).Nodup) :
    ((learn_update st name new_cat).keyword_dict.map Prod.fst).Nodup := by
  rw [learn_update_kd_eq, addWords_keys]
  cases hany : st.keyword_dict.any (fun p => p.1 == new_cat)
  · rw [if_neg (by simp [hany]), List.map_append]
    have hnotin : new_cat ∉ st.keyword_dict.map Prod.fst := by
      intro hmem
      rcases List.mem_map.mp hmem with ⟨p, hp, hfst⟩
      have : st.keyword_dict.any (fun p => p.1 == new_cat) = true :=
        List.any_eq_true.mpr ⟨p, hp, by simp [hfst]⟩
      rw [hany] at this
      exact Bool.false_ne_true this
    simp [List.nodup_append, hnd, hnotin]
  · rw [if_pos rfl]
    exact hnd

theorem session_ext (a b : Session) (h1 : a.keyword_dict = b.keyword_dict)
    (h2 : a.name_to_category = b.name_to_category) : a = b := by
  cases a
  cases b
  simp_all

theorem learn_update_idem (st : Session) (name new_cat : String)
    (hnd : (st.keyword_dict.map Prod.fst).Nodup) :
    learn_update (learn_update st name new_cat) name new_cat
      = learn_update st name new_cat := by
  obtain ⟨base, _, hkd⟩ := learn_update_kd st name new_cat
  have hany1 : (learn_update st name new_cat).keyword_dict.any
      (fun p => p.1 == new_cat) = true := by
    rw [any_key_eq_isSome, hkd]
    rfl
  have hkdnodup := learn_update_keys_nodup st name new_cat hnd
  apply session_ext
  · rw [learn_update_kd_eq, if_pos hany1]
    exact addWords_eq_of_all_mem _ _ _ _ hkdnodup hkd
      (fun w hw => mem_base_fresh _ base w hw)
  · rw [learn_update_nm_eq, learn_update_nm_eq]
    exact dictInsert_dictInsert _ _ _

theorem learn_step_pos (st : Session) (old_cat new_cat name : String)
    (h1 : new_cat ≠ old_cat) (h2 : pyStrip new_cat ≠ "") :
    learn_step st old_cat new_cat name = learn_update st name new_cat := by
  unfold learn_step
  rw [if_pos ⟨h1, h2⟩]

theorem learnAll_nil (st : Session) : learnAll st [] = st := rfl

theorem learnAll_cons (st : Session) (e : String × String × String)
    (es : List (String × String × String)) :
    learnAll st (e :: es) = learnAll (learn_step st e.1 e.2.1 e.2.2) es := rfl

/-! ### C3 -/

/-- C3 (counterexample): the learned name-map key is the *lowercased* name,
not the lowercased-and-trimmed name the claim demands — after the user
renames `" John Doe"` to `"Rent"`, `nameMap` has no entry for the normalized
name `"john doe"`; the entry sits under `" john doe"`. -/
theorem c3_counterexample :
    alookup (learn_step ⟨default_keywords, []⟩ "Other" "Rent" " John Doe").name_to_category
        (normName " John Doe") = none
    ∧ alookup (learn_step ⟨default_keywords, []⟩ "Other" "Rent" " John Doe").name_to_category
        (pyLower " John Doe") = some "Rent" := by
  refine ⟨by decide, by decide⟩

/-- C3 (amended): for a correction whose new category is non-blank and
differs from the old one, the learning step (1)+(3) ensures the new category
is a ruleset key whose keyword list is the old list extended, in first-seen
order, by the unseen whitespace tokens of the lowercased name, (2) upserts
`nameMap[lowercase(name)] = newCategory` (the key is lowercased but *not*
trimmed), leaves every other category's keywords untouched, and all effects
are idempotent under repeated identical input. -/
theorem c3_learn_effects (st : Session) (old_cat new_cat name : String)
    (hne : new_cat ≠ old_cat) (hnb : pyStrip new_cat ≠ "")
    (hnd : (st.keyword_dict.map Prod.fst).Nodup) :
    alookup (learn_step st old_cat new_cat name).name_to_category (pyLower name)
        = some new_cat
    ∧ (∃ base, ((alookup st.keyword_dict new_cat = some base)
          ∨ (alookup st.keyword_dict new_cat = none ∧ base = []))
        ∧ alookup (learn_step st old_cat new_cat name).keyword_dict new_cat
            = some (base ++ freshTokensFn base (pySplit (pyLower name))))
    ∧ (∀ c, ¬ new_cat = c →
        alookup (learn_step st old_cat new_cat name).keyword_dict c
          = alookup st.keyword_dict c)
    ∧ learn_step (learn_step st old_cat new_cat name) old_cat new_cat name
        = learn_step st old_cat new_cat name := by
  rw [learn_step_pos st old_cat new_cat name hne hnb]
  exact ⟨learn_update_nm st name new_cat,
    learn_update_kd st name new_cat,
    fun c hc => learn_update_kd_other st name new_cat c hc,
    by rw [learn_step_pos _ old_cat new_cat name hne hnb]
       exact learn_update_idem st name new_cat hnd⟩

theorem c3_witness :
    alookup (learn_step ⟨default_keywords, []⟩ "Other" "Rent" "John Doe").name_to_category
        (pyLower "John Doe") = some "Rent" :=
  (c3_learn_effects ⟨default_keywords, []⟩ "Other" "Rent" "John Doe"
    (by decide) (by decide) (by decide)).1

/-! ### C4 -/

theorem learn_step_grows (st : Session) (old_cat new_cat name c : String)
    (l : List String) (h : alookup st.keyword_dict c = some l) :
    ∃ l2, alookup (learn_step st old_cat new_cat name).keyword_dict c = some l2
      ∧ l ⊆ l2 := by
  unfold learn_step
  by_cases hcond : (new_cat ≠ old_cat ∧ pyStrip new_cat ≠ "")
  · rw [if_pos hcond, learn_update_kd_eq]
    have hkd0 : alookup (if st.keyword_dict.any (fun p => p.1 == new_cat)
        then st.keyword_dict else st.keyword_dict ++ [(new_cat, [])]) c = some l := by
      cases hany : st.keyword_dict.any (fun p => p.1 == new_cat)
      · rw [if_neg (by simp [hany])]
        exact alookup_append_some h _
      · rw [if_pos rfl]
        exact h
    exact alookup_addWords_grow _ _ _ _ _ hkd0
  · rw [if_neg hcond]
    exact ⟨l, h, List.Subset.refl l⟩

/-- C4: across any sequence of learning steps in a session, keyword lists
only grow — every category's keyword list before the edits is a subset of
its list afterwards (keywords are appended, never removed or replaced). -/
theorem c4_keyword_monotonicity (st : Session)
    (edits : List (String × String × String)) (c : String) (l : List String)
    (h : alookup st.keyword_dict c = some l) :
    ∃ l2, alookup (learnAll st edits).keyword_dict c = some l2 ∧ l ⊆ l2 := by
  induction edits generalizing st l with
  | nil => exact ⟨l, h, List.Subset.refl l⟩
  | cons e es ih =>
    rw [learnAll_cons]
    obtain ⟨l1, h1, hs1⟩ := learn_step_grows st e.1 e.2.1 e.2.2 c l h
    obtain ⟨l2, h2, hs2⟩ := ih (learn_step st e.1 e.2.1 e.2.2) l1 h1
    exact ⟨l2, h2, List.Subset.trans hs1 hs2⟩

theorem c4_witness :
    ∃ l2, alookup (learnAll ⟨default_keywords, []⟩
        [("Other", "Rent", "John Doe"), ("Food", "Transport", "Uber Rides")]).keyword_dict
        "Food" = some l2
      ∧ ["zomato", "swiggy", "restaurant", "pizza"] ⊆ l2 :=
  c4_keyword_monotonicity ⟨default_keywords, []⟩
    [("Other", "Rent", "John Doe"), ("Food", "Transport", "Uber Rides")]
    "Food" ["zomato", "swiggy", "restaurant", "pizza"] (by decide)

/-! ### Helper lemmas: the line-classifier regex -/

theorem eatLit_eq_some (p : List Char) : ∀ (l r : List Char),
    eatLit p l = some r ↔ l = p ++ r := by
  induction p with
  | nil =>
    intro l r
    simp [eatLit]
  | cons x xs ih =>
    intro l r
    cases l with
    | nil =>
      simp [eatLit]
    | cons c cs =>
      simp only [eatLit]
      by_cases hc : c = x
      · rw [if_pos (by simp [hc]), ih cs r]
        subst hc
        simp
      · rw [if_neg (by simp [hc])]
        constructor
        · intro h
          exact Option.noConfusion h
        · intro h
          injection h with h1 h2
          exact absurd h1 hc

theorem consumeClasses_eq_some (ps : List (Char → Bool)) : ∀ (l r : List Char),
    consumeClasses ps l = some r
      ↔ ∃ pre, l = pre ++ r ∧ List.Forall₂ (fun p c => p c = true) ps pre := by
  induction ps with
  | nil =>
    intro l r
    simp only [consumeClasses, Option.some.injEq]
    constructor
    · intro h
      exact ⟨[], by simp [h], List.Forall₂.nil⟩
    · rintro ⟨pre, hl, hf⟩
      cases hf
      simpa using hl
  | cons p ps ih =>
    intro l r
    cases l with
    | nil =>
      simp only [consumeClasses]
      constructor
      · intro h
        exact Option.noConfusion h
      · rintro ⟨pre, hl, hf⟩
        cases hf with
        | cons hb hf' => simp at hl
    | cons c cs =>
      simp only [consumeClasses]
      by_cases hc : p c = true
      · rw [if_pos hc, ih cs r]
        constructor
        · rintro ⟨pre, hl, hf⟩
          exact ⟨c :: pre, by rw [List.cons_append, hl], List.Forall₂.cons hc hf⟩
        · rintro ⟨pre, hl, hf⟩
          cases hf with
          | cons hb hf' =>
            rw [List.cons_append] at hl
            injection hl with h1 h2
            subst h1
            exact ⟨_, h2, hf'⟩
      · rw [if_neg hc]
        constructor
        · intro h
          exact Option.noConfusion h
        · rintro ⟨pre, hl, hf⟩
          cases hf with
          | cons hb hf' =>
            rw [List.cons_append] at hl
            injection hl with h1 h2
            subst h1
            exact absurd hb hc

theorem digitAfter_iff (p l : List Char) :
    digitAfter p l = true ↔ ∃ dig rest, l = p ++ dig :: rest ∧ dig.isDigit = true := by
  unfold digitAfter
  cases h : eatLit p l with
  | none =>
    constructor
    · intro hf
      exact absurd hf Bool.false_ne_true
    · rintro ⟨dig, rest, hl, _⟩
      have h2 := (eatLit_eq_some p l (dig :: rest)).mpr hl
      rw [h] at h2
      exact Option.noConfusion h2
  | some r =>
    cases r with
    | nil =>
      constructor
      · intro hf
        exact absurd hf Bool.false_ne_true
      · rintro ⟨dig, rest, hl, _⟩
        have h2 := (eatLit_eq_some p l (dig :: rest)).mpr hl
        rw [h] at h2
        simp at h2
    | cons c cs =>
      have hl : l = p ++ c :: cs := (eatLit_eq_some p l (c :: cs)).mp h
      constructor
      · intro hd
        exact ⟨c, cs, hl, hd⟩
      · rintro ⟨dig, rest, hl2, hd⟩
        rw [hl] at hl2
        have h3 := List.append_cancel_left hl2
        injection h3 with h4 h5
        rw [h4]
        exact hd

theorem dcCheck_iff (l : List Char) :
    dcCheck l = true
      ↔ ∃ dc dig rest, (dc = "Debit" ∨ dc = "Credit")
          ∧ l = (" " ++ dc ++ " INR ").data ++ dig :: rest ∧ dig.isDigit = true := by
  unfold dcCheck
  rw [Bool.or_eq_true, digitAfter_iff, digitAfter_iff]
  have hdataD : (" " ++ "Debit" ++ " INR ").data = (" Debit INR ").data := by decide
  have hdataC : (" " ++ "Credit" ++ " INR ").data = (" Credit INR ").data := by decide
  constructor
  · rintro (⟨dig, rest, hl, hd⟩ | ⟨dig, rest, hl, hd⟩)
    · exact ⟨"Debit", dig, rest, Or.inl rfl, by rw [hl, hdataD], hd⟩
    · exact ⟨"Credit", dig, rest, Or.inr rfl, by rw [hl, hdataC], hd⟩
  · rintro ⟨dc, dig, rest, hor, hl, hd⟩
    rcases hor with rfl | rfl
    · exact Or.inl ⟨dig, rest, by rw [hl, hdataD], hd⟩
    · exact Or.inr ⟨dig, rest, by rw [hl, hdataC], hd⟩

theorem scanDC_iff (l : List Char) :
    scanDC l = true
      ↔ ∃ mid rest, l = mid ++ rest ∧ (∀ c ∈ mid, c ≠ '\n')
          ∧ dcCheck rest = true := by
  induction l with
  | nil =>
    constructor
    · intro h
      exact absurd h Bool.false_ne_true
    · rintro ⟨mid, rest, hl, _, hdc⟩
      obtain ⟨h1, h2⟩ := List.append_eq_nil.mp hl.symm
      subst h2
      exact absurd hdc (by decide)
  | cons c cs ih =>
    rw [show scanDC (c :: cs) = (dcCheck (c :: cs) || (c != '\n' && scanDC cs)) from rfl]
    rw [Bool.or_eq_true, Bool.and_eq_true]
    constructor
    · rintro (hdc | ⟨hne, hsc⟩)
      · exact ⟨[], c :: cs, rfl, by simp, hdc⟩
      · obtain ⟨mid, rest, hl, hmid, hdc⟩ := ih.mp hsc
        refine ⟨c :: mid, rest, by rw [List.cons_append, hl], ?_, hdc⟩
        intro x hx
        rcases List.mem_cons.mp hx with rfl | hxm
        · simpa using hne
        · exact hmid x hxm
    · rintro ⟨mid, rest, hl, hmid, hdc⟩
      cases mid with
      | nil =>
        left
        rw [List.nil_append] at hl
        rw [hl]
        exact hdc
      | cons m ms =>
        right
        rw [List.cons_append] at hl
        injection hl with h1 h2
        subst h1
        constructor
        · simpa using hmid c (by simp)
        · exact ih.mpr ⟨ms, rest, h2, fun x hx => hmid x (by simp [hx]), hdc⟩

/-! ### C6 -/

/-- C6 (counterexample): `"Jan 01, 2023 Debit INR 1"` begins with a date,
followed by the token `Debit`, then `INR` and a digit — the claim's iff
demands acceptance — yet the classifier rejects it, because the regex
requires a space-delimited gap (` .* `) between the year and the direction
token. -/
theorem c6_counterexample :
    claimC6LinePred "Jan 01, 2023 Debit INR 1"
    ∧ is_transaction_line "Jan 01, 2023 Debit INR 1" = false := by
  constructor
  · refine ⟨"Jan", "01", "2023", " Debit INR 1", by decide, by decide, by decide,
      by decide, by decide, by decide, [], "Debit", [], ["1"], by decide,
      Or.inl rfl, "1", by decide, '1', by decide, by decide⟩
  · decide

/-- C6 (amended): the classifier accepts a line iff it decomposes as
13 head characters matching `[A-Za-z]{3} \d{2}, \d{4} ` (three ASCII letters,
not necessarily a month abbreviation), an arbitrary newline-free gap, a
space, `Debit` or `Credit`, the exact text ` INR ` and a digit; anything may
follow.  It is a pure predicate. -/
theorem c6_classifier_regex_characterization (line : String) :
    is_transaction_line line = true
      ↔ ∃ pre mid dc dig rest,
          line.data = pre ++ mid ++ (" " ++ dc ++ " INR ").data ++ dig :: rest
          ∧ List.Forall₂ (fun p c => p c = true) headClasses pre
          ∧ (∀ c ∈ mid, c ≠ '\n')
          ∧ (dc = "Debit" ∨ dc = "Credit")
          ∧ dig.isDigit = true := by
  unfold is_transaction_line
  cases h : consumeClasses headClasses line.data with
  | none =>
    constructor
    · intro hf
      exact absurd hf Bool.false_ne_true
    · rintro ⟨pre, mid, dc, dig, rest, hdata, hpre, hmid, hor, hd⟩
      have h2 : consumeClasses headClasses line.data
          = some (mid ++ ((" " ++ dc ++ " INR ").data ++ dig :: rest)) := by
        rw [consumeClasses_eq_some]
        exact ⟨pre, by rw [hdata]; simp [List.append_assoc], hpre⟩
      rw [h] at h2
      exact Option.noConfusion h2
  | some rest0 =>
    obtain ⟨pre0, hl0, hpre0⟩ := (consumeClasses_eq_some headClasses line.data rest0).mp h
    rw [scanDC_iff]
    constructor
    · rintro ⟨mid, rest1, hrest0, hmid, hdc⟩
      obtain ⟨dc, dig, rest, hor, hresteq, hd⟩ := (dcCheck_iff rest1).mp hdc
      refine ⟨pre0, mid, dc, dig, rest, ?_, hpre0, hmid, hor, hd⟩
      rw [hl0, hrest0, hresteq]
      simp [List.append_assoc]
    · rintro ⟨pre, mid, dc, dig, rest, hdata, hpre, hmid, hor, hd⟩
      have hlen : pre.length = pre0.length := by
        rw [← hpre.length_eq, ← hpre0.length_eq]
      have hsplit : pre = pre0
          ∧ mid ++ ((" " ++ dc ++ " INR ").data ++ dig :: rest) = rest0 := by
        have hcomb : pre ++ (mid ++ ((" " ++ dc ++ " INR ").data ++ dig :: rest))
            = pre0 ++ rest0 := by
          rw [← hl0, hdata]
          simp [List.append_assoc]
        exact List.append_inj hcomb hlen
      refine ⟨mid, (" " ++ dc ++ " INR ").data ++ dig :: rest, hsplit.2.symm, hmid, ?_⟩
      rw [dcCheck_iff]
      exact ⟨dc, dig, rest, hor, rfl, hd⟩

theorem c6_witness :
    ∃ pre mid dc dig rest,
      ("Jul 04, 2023 Paid to Zomato Debit INR 450.00").data
          = pre ++ mid ++ (" " ++ dc ++ " INR ").data ++ dig :: rest
        ∧ List.Forall₂ (fun p c => p c = true) headClasses pre
        ∧ (∀ c ∈ mid, c ≠ '\n')
        ∧ (dc = "Debit" ∨ dc = "Credit")
        ∧ dig.isDigit = true :=
  (c6_classifier_regex_characterization "Jul 04, 2023 Paid to Zomato Debit INR 450.00").mp
    (by decide)

/-! ### C7 -/

theorem parse_line_eq (line : String) (ms ds ys : String) (d : PDate)
    (hm : dateMatch line.data = some (ms, ds, ys))
    (hst : strptimeBDY ms ds ys = some d) :
    parse_line line = some {
      date := d,
      name := if strContains line "Paid to" then
          pyStrip ((pySplitOnStr ((pySplitOnStr line "Paid to").getD 1 "") "Debit").getD 0 "")
        else if strContains line "Received from" then
          pyStrip ((pySplitOnStr ((pySplitOnStr line "Received from").getD 1 "") "Credit").getD 0 "")
        else "Unknown",
      dc := if strContains line "Debit" then "Debit" else "Credit",
      amount := match findAmount line.data with
        | some g => amountCents g
        | none => 0,
      category := none } := by
  simp only [parse_line, hm, hst]

/-- C7 (counterexample): the line `"Zzz 99, 2023 x Debit INR 5"` is accepted
by the classifier and has no amount-pattern match, yet the extractor drops it
(returns no record) because its date does not parse — against the claim's
"keeps the record ... rather than dropping the line" for *every*
classifier-accepted line. -/
theorem c7_counterexample :
    is_transaction_line "Zzz 99, 2023 x Debit INR 5" = true
    ∧ findAmount ("Zzz 99, 2023 x Debit INR 5").data = none
    ∧ parse_line "Zzz 99, 2023 x Debit INR 5" = none := by
  refine ⟨by decide, by decide, by decide⟩

/-- C7 (amended): for every classifier-accepted line whose date also parses
(date failure drops the whole line instead), the extractor keeps the record:
with no amount-pattern match the amount defaults to 0.00, and when a match
exists the amount is the first capture's value with thousands separators
stripped before numeric parsing. -/
theorem c7_amount_default_and_comma_strip (line : String) (d : PDate)
    (_hcls : is_transaction_line line = true)
    (hdate : dateOfLine line = some d) :
    (findAmount line.data = none → ∃ r, parse_line line = some r ∧ r.amount = 0)
    ∧ (∀ g, findAmount line.data = some g →
        ∃ r, parse_line line = some r ∧ r.amount = decCents (stripCommas g)) := by
  cases hm : dateMatch line.data with
  | none => simp [dateOfLine, hm] at hdate
  | some trip =>
    obtain ⟨ms, ds, ys⟩ := trip
    have hst : strptimeBDY ms ds ys = some d := by
      simpa [dateOfLine, hm] using hdate
    have hp := parse_line_eq line ms ds ys d hm hst
    constructor
    · intro hfa
      refine ⟨_, hp, ?_⟩
      simp [hfa]
    · intro g hg
      refine ⟨_, hp, ?_⟩
      simp [hg, amountCents]

theorem c7_witness :
    is_transaction_line "Jan 02, 2023 Paid to Bob Debit INR 5" = true
    ∧ ∃ r, parse_line "Jan 02, 2023 Paid to Bob Debit INR 5" = some r
        ∧ r.amount = 0 :=
  ⟨by decide,
   (c7_amount_default_and_comma_strip "Jan 02, 2023 Paid to Bob Debit INR 5"
      ⟨2023, 1, 2⟩ (by decide) (by decide)).1 (by decide)⟩

/-! ### C8 -/

theorem csvField_of_clean (s : String) (h : cleanField s) : csvField s = s := by
  unfold csvField
  rw [if_neg]
  intro hq
  obtain ⟨c, hc, hor⟩ := List.any_eq_true.mp hq
  obtain ⟨h1, h2, h3, h4⟩ := h c hc
  have hor2 : ((c = ',' ∨ c = '"') ∨ c = '\n') ∨ c = '\r' := by
    simpa using hor
  rcases hor2 with ((h' | h') | h') | h'
  · exact h1 h'
  · exact h2 h'
  · exact h3 h'
  · exact h4 h'

theorem rowCsv_of_clean (r : Row) (h1 : cleanField (isoDate r.date))
    (h2 : cleanField r.name) (h3 : cleanField r.dc)
    (h4 : cleanField (pyFloatRepr r.amount))
    (h5 : cleanField (r.category.getD "")) :
    rowCsv r = isoDate r.date ++ "," ++ r.name ++ "," ++ r.dc ++ ","
      ++ pyFloatRepr r.amount ++ "," ++ r.category.getD "" := by
  unfold rowCsv
  rw [csvField_of_clean _ h1, csvField_of_clean _ h2, csvField_of_clean _ h3,
    csvField_of_clean _ h4, csvField_of_clean _ h5]

/-- C8 (counterexample): an amount of exactly 450.00 is serialized as
`450.0` — one fractional digit, not the two the claim requires — because the
frame stores a float and `to_csv` renders its shortest representation. -/
theorem c8_counterexample :
    to_csv [⟨⟨2023, 7, 4⟩, "Zomato", "Debit", 45000, some "Food"⟩]
      = "Date,Name,Debit/Credit,Amount,Category\n2023-07-04,Zomato,Debit,450.0,Food\n"
    ∧ pyFloatRepr 45000 = "450.0"
    ∧ decimalFracLen (pyFloatRepr 45000) = 1 := by
  refine ⟨by decide, by decide, by decide⟩

/-- C8 (amended): the categorized batch serializes with header
`Date,Name,Debit/Credit,Amount,Category` — exactly those columns in that
order — each row carrying the ISO-8601 date, name, direction, amount and
category in the same order; the amount is rendered as the float's shortest
decimal form (trailing fractional zeros dropped, at least one fractional
digit), not always two fractional digits.  (Stated for rows whose rendered
fields need no CSV quoting.) -/
theorem c8_export_format (rows : List Row)
    (h : ∀ r ∈ rows, cleanField (isoDate r.date) ∧ cleanField r.name
        ∧ cleanField r.dc ∧ cleanField (pyFloatRepr r.amount)
        ∧ cleanField (r.category.getD "")) :
    to_csv rows = "Date,Name,Debit/Credit,Amount,Category\n"
      ++ String.join (rows.map (fun r =>
          isoDate r.date ++ "," ++ r.name ++ "," ++ r.dc ++ ","
            ++ pyFloatRepr r.amount ++ "," ++ r.category.getD "" ++ "\n")) := by
  unfold to_csv
  have hmap : rows.map (fun r => rowCsv r ++ "\n")
      = rows.map (fun r => isoDate r.date ++ "," ++ r.name ++ "," ++ r.dc ++ ","
          ++ pyFloatRepr r.amount ++ "," ++ r.category.getD "" ++ "\n") := by
    apply List.map_congr_left
    intro r hr
    obtain ⟨h1, h2, h3, h4, h5⟩ := h r hr
    rw [rowCsv_of_clean r h1 h2 h3 h4 h5]
  rw [hmap]

theorem c8_witness :
    to_csv [⟨⟨2024, 1, 15⟩, "John Doe", "Debit", 120050, some "Other"⟩]
      = "Date,Name,Debit/Credit,Amount,Category\n"
        ++ String.join ([(⟨⟨2024, 1, 15⟩, "John Doe", "Debit", 120050, some "Other"⟩ : Row)].map
            (fun r => isoDate r.date ++ "," ++ r.name ++ "," ++ r.dc ++ ","
              ++ pyFloatRepr r.amount ++ "," ++ r.category.getD "" ++ "\n")) :=
  c8_export_format [⟨⟨2024, 1, 15⟩, "John Doe", "Debit", 120050, some "Other"⟩]
    (by decide)
